import Mathlib

/-!
Shallow embedding of the timetable scheduling core of
`indico/modules/events/timetable/util.py`, together with proofs checking the
natural-language specification against it.

Modelling conventions:
* timezone-aware datetimes are UTC instants measured in minutes (`Int`);
* a (fixed-offset) timezone is its offset from UTC in minutes (`Int`);
* a calendar date is the number of the day (`Int`), where an instant `t`
  seen in timezone `off` falls on day `(t + off) / 1440` (floor division,
  matching `datetime.astimezone(tz).date()`);
* `timedelta` values are minutes (`Int`, possibly negative);
* Python `None` results are `Option.none`; raised `ValueError`s are
  `Except.error` values;
* SQLAlchemy queries over the database are list filters over an explicit
  store; Python's stable `list.sort` is insertion sort.
-/

namespace IndicoTT

/-- Python `t.astimezone(tz).date()` for an instant `t` (minutes UTC) and a fixed
timezone offset `off` (minutes): floor division of the local time by one day. -/
def localDate (off t : Int) : Int := (t + off) / 1440

/-- Python `t.date()` of a UTC-stored aware datetime: the date in UTC. -/
def utcDate (t : Int) : Int := t / 1440

/-- Modelled from the spec: `get_day_start(day, tzinfo)` from
`indico.util.date_time` (not under `src/`) — local midnight of `day`, as an
instant. -/
def get_day_start (day off : Int) : Int := day * 1440 - off

/-- Modelled from the spec: `get_day_end(day, tzinfo)` from
`indico.util.date_time` (not under `src/`) — the end of the local day
(the spec bounds entries at "8:00–24:00 local"), as an instant. -/
def get_day_end (day off : Int) : Int := day * 1440 + 1440 - off

theorem localDate_mono {off t1 t2 : Int} (h : t1 ≤ t2) :
    localDate off t1 ≤ localDate off t2 :=
  Int.ediv_le_ediv (by norm_num) (by omega)

/-! ### Data model for the interval/fit resolver -/

/-- A timetable entry as seen by `find_latest_entry_end_dt`: its parent link
and its time interval. -/
structure TTEntry where
  parent : Option Nat
  startDt : Int
  endDt : Int
deriving DecidableEq

/-- An `Event` container: own start/end instants, timezone, and its
`timetable_entries`. -/
structure FitEvent where
  startDt : Int
  endDt : Int
  tzOffset : Int
  entries : List TTEntry
deriving DecidableEq

/-- A `SessionBlock` container: its own `timetable_entry`'s interval and that
entry's children. -/
structure FitBlock where
  entryStartDt : Int
  entryEndDt : Int
  children : List TTEntry
deriving DecidableEq

/-- The closed set of container kinds accepted by the resolver. -/
inductive Container where
  | event (e : FitEvent)
  | block (b : FitBlock)
deriving DecidableEq

/-- The `ValueError`s raised by the resolver. -/
inductive TTError where
  | noDayForEvent
  | dayOutOfBounds
  | dayForBlock
deriving DecidableEq

/-- The value `obj.start_dt_local.date()` of an event. -/
def FitEvent.startDateLocal (e : FitEvent) : Int := localDate e.tzOffset e.startDt

/-- The value `obj.end_dt_local.date()` of an event. -/
def FitEvent.endDateLocal (e : FitEvent) : Int := localDate e.tzOffset e.endDt

/-- The top-level entries of event `e` whose local start date is `d`:
`obj.timetable_entries.filter(parent_id IS NULL, cast(start_dt in tz, Date) == day)`. -/
def matchingDayEntries (e : FitEvent) (d : Int) : List TTEntry :=
  e.entries.filter (fun t => decide (t.parent = none ∧ localDate e.tzOffset t.startDt = d))

/-- Line 95, `max(entries, key=attrgetter('end_dt')).end_dt if entries else None`. -/
def maxEndDt : List TTEntry → Option Int
  | [] => none
  | t :: ts => some (ts.foldl (fun m x => max m x.endDt) t.endDt)

/-- Source `find_latest_entry_end_dt(obj, day=None)` (util.py lines 72–95). -/
def find_latest_entry_end_dt (obj : Container) (day : Option Int) :
    Except TTError (Option Int) :=
  match obj with
  | .event e =>
    match day with
    | none => .error .noDayForEvent
    | some d =>
      if e.startDateLocal ≤ d ∧ d ≤ e.endDateLocal then
        .ok (maxEndDt (matchingDayEntries e d))
      else
        .error .dayOutOfBounds
  | .block b =>
    match day with
    | some _ => .error .dayForBlock
    | none => .ok (maxEndDt b.children)

/-- Lines 112–126 of `find_next_start_dt`: validation of `day` and computation
of `(earliest_dt, latest_dt)`.  Note that the source picks `obj.end_dt` as the
latest bound when `obj.start_dt.date() == day` (the UTC date of the event
START), not when `day` is the event's last local day. -/
def container_bounds (obj : Container) (day : Option Int) :
    Except TTError (Int × Int) :=
  match obj with
  | .event e =>
    match day with
    | none => .error .noDayForEvent
    | some d =>
      if e.startDateLocal ≤ d ∧ d ≤ e.endDateLocal then
        let earliest_dt :=
          if e.startDateLocal = d then e.startDt
          else get_day_start d e.tzOffset + 8 * 60
        let latest_dt :=
          if utcDate e.startDt = d then e.endDt
          else get_day_end d e.tzOffset
        .ok (earliest_dt, latest_dt)
      else
        .error .dayOutOfBounds
  | .block b =>
    match day with
    | some _ => .error .dayForBlock
    | none => .ok (b.entryStartDt, b.entryEndDt)

/-- Source `find_next_start_dt(duration, obj, day=None, force=False)`
(util.py lines 98–134). -/
def find_next_start_dt (duration : Int) (obj : Container) (day : Option Int)
    (force : Bool) : Except TTError (Option Int) := do
  let (earliest_dt, latest_dt) ← container_bounds obj day
  let max_duration := latest_dt - earliest_dt
  if max_duration < duration then
    return (if force then some earliest_dt else none)
  let start_dt := (← find_latest_entry_end_dt obj day).getD earliest_dt
  let end_dt := start_dt + duration
  if latest_dt < end_dt then
    return some (latest_dt - duration)
  return some start_dt

/-! ### Facts about `maxEndDt` -/

theorem foldl_max_init_le (l : List TTEntry) (a : Int) :
    a ≤ l.foldl (fun m x => max m x.endDt) a := by
  induction l generalizing a with
  | nil => exact le_refl a
  | cons t ts ih =>
    simpa using le_trans (le_max_left a t.endDt) (ih (max a t.endDt))

theorem foldl_max_le_of_mem {l : List TTEntry} {x : TTEntry} (hx : x ∈ l) (a : Int) :
    x.endDt ≤ l.foldl (fun m x => max m x.endDt) a := by
  induction l generalizing a with
  | nil => cases hx
  | cons t ts ih =>
    rcases List.mem_cons.mp hx with h | h
    · subst h
      exact le_trans (le_max_right a x.endDt) (foldl_max_init_le ts _)
    · exact ih h _

theorem foldl_max_mem (l : List TTEntry) (a : Int) :
    l.foldl (fun m x => max m x.endDt) a = a ∨
      ∃ x ∈ l, l.foldl (fun m x => max m x.endDt) a = x.endDt := by
  induction l generalizing a with
  | nil => exact Or.inl rfl
  | cons t ts ih =>
    rcases ih (max a t.endDt) with h | ⟨x, hx, hfx⟩
    · simp only [List.foldl_cons]
      rcases max_choice a t.endDt with hm | hm
      · exact Or.inl (h.trans hm)
      · exact Or.inr ⟨t, List.mem_cons_self t ts, h.trans hm⟩
    · exact Or.inr ⟨x, List.mem_cons_of_mem t hx, hfx⟩

theorem maxEndDt_eq_none_iff (l : List TTEntry) : maxEndDt l = none ↔ l = [] := by
  cases l <;> simp [maxEndDt]

theorem maxEndDt_spec {l : List TTEntry} {m : Int} (h : maxEndDt l = some m) :
    (∃ x ∈ l, x.endDt = m) ∧ ∀ x ∈ l, x.endDt ≤ m := by
  cases l with
  | nil => simp [maxEndDt] at h
  | cons t ts =>
    simp only [maxEndDt, Option.some.injEq] at h
    subst h
    constructor
    · rcases foldl_max_mem ts t.endDt with h | ⟨x, hx, hfx⟩
      · exact ⟨t, List.mem_cons_self t ts, h.symm⟩
      · exact ⟨x, List.mem_cons_of_mem t hx, hfx.symm⟩
    · intro x hx
      rcases List.mem_cons.mp hx with h | h
      · subst h; exact foldl_max_init_le ts x.endDt
      · exact foldl_max_le_of_mem h _

/-! ### Claims C1, C5, C6 -/

/-- Event used for the C1 counterexample: starts day 0 at 09:00 UTC, ends
day 1 at 17:00 UTC, timezone UTC, no entries. -/
def evC1 : FitEvent := ⟨540, 2460, 0, []⟩

/-- C1 (code_bug evidence): for the event `evC1` and `day = 1` — the event's
last local day — the source computes `latest_dt` as the end of the local day
(2880) instead of the event's `end_dt` (2460), because it tests
`obj.start_dt.date() == day` rather than comparing `day` with the event's last
local day; consequently a 10-hour duration (600 min) is reported to fit at
08:00 local (1920) although only 9 hours remain before the event ends. -/
theorem container_bounds_last_day_divergence :
    FitEvent.endDateLocal evC1 = 1 ∧
    container_bounds (.event evC1) (some 1) = .ok (1920, 2880) ∧
    (2880 : Int) ≠ evC1.endDt ∧
    find_next_start_dt 600 (.event evC1) (some 1) false = .ok (some 1920) :=
  ⟨rfl, rfl, by decide, rfl⟩

/-- C5: whenever the bounds computation succeeds with `(earliest, latest)` and
the requested duration strictly exceeds `latest - earliest`,
`find_next_start_dt` returns `None` when `force` is false and exactly
`earliest` when `force` is true. -/
theorem find_next_start_dt_overflow (duration : Int) (obj : Container)
    (day : Option Int) (force : Bool) (e l : Int)
    (hb : container_bounds obj day = .ok (e, l)) (hgt : l - e < duration) :
    find_next_start_dt duration obj day force =
      .ok (if force then some e else none) := by
  simp only [find_next_start_dt, hb, bind, Except.bind, pure, Except.pure]
  rw [if_pos hgt]

/-- Event used for the C5 witness: one day, 09:00–17:00 UTC. -/
def evC5 : FitEvent := ⟨540, 1020, 0, []⟩

/-- Witness for C5 at the spec's own scenario: a 10-hour duration in an 8-hour
event window gives `None` without `force` and `earliest` (09:00 = 540) with
`force`. -/
theorem find_next_start_dt_overflow_witness :
    find_next_start_dt 600 (.event evC5) (some 0) false = .ok none ∧
    find_next_start_dt 600 (.event evC5) (some 0) true = .ok (some 540) :=
  ⟨find_next_start_dt_overflow 600 _ _ false 540 1020 rfl (by norm_num),
   find_next_start_dt_overflow 600 _ _ true 540 1020 rfl (by norm_num)⟩

/-- C6: for an event and a day inside its local range,
`find_latest_entry_end_dt` succeeds and returns `None` exactly when no
top-level entry starts on that local day, and otherwise the maximum `end_dt`
of those entries; for a session block (no day) likewise over the block entry's
children; in both cases any bounds containing all considered entries' end
datetimes contain the result. -/
theorem find_latest_entry_end_dt_spec (e : FitEvent) (d : Int) (b : FitBlock)
    (hd : e.startDateLocal ≤ d ∧ d ≤ e.endDateLocal) :
    (∃ r, find_latest_entry_end_dt (.event e) (some d) = .ok r ∧
      (r = none ↔ matchingDayEntries e d = []) ∧
      ∀ m, r = some m →
        ((∃ t ∈ matchingDayEntries e d, t.endDt = m) ∧
         (∀ t ∈ matchingDayEntries e d, t.endDt ≤ m) ∧
         ∀ lo hi, (∀ t ∈ matchingDayEntries e d, lo ≤ t.endDt ∧ t.endDt ≤ hi) →
           lo ≤ m ∧ m ≤ hi)) ∧
    (∃ r, find_latest_entry_end_dt (.block b) none = .ok r ∧
      (r = none ↔ b.children = []) ∧
      ∀ m, r = some m →
        ((∃ t ∈ b.children, t.endDt = m) ∧
         (∀ t ∈ b.children, t.endDt ≤ m) ∧
         ∀ lo hi, (∀ t ∈ b.children, lo ≤ t.endDt ∧ t.endDt ≤ hi) →
           lo ≤ m ∧ m ≤ hi)) := by
  constructor
  · refine ⟨maxEndDt (matchingDayEntries e d), ?_, ?_, ?_⟩
    · simp [find_latest_entry_end_dt, hd]
    · exact maxEndDt_eq_none_iff _
    · intro m hm
      obtain ⟨hex, hub⟩ := maxEndDt_spec hm
      refine ⟨hex, hub, ?_⟩
      intro lo hi hbnd
      obtain ⟨t, ht, hte⟩ := hex
      exact ⟨hte ▸ (hbnd t ht).1, hte ▸ (hbnd t ht).2⟩
  · refine ⟨maxEndDt b.children, rfl, maxEndDt_eq_none_iff _, ?_⟩
    intro m hm
    obtain ⟨hex, hub⟩ := maxEndDt_spec hm
    refine ⟨hex, hub, ?_⟩
    intro lo hi hbnd
    obtain ⟨t, ht, hte⟩ := hex
    exact ⟨hte ▸ (hbnd t ht).1, hte ▸ (hbnd t ht).2⟩

/-- Event used for the C6 witness: 09:00–17:00 UTC with one top-level entry
10:00–10:30. -/
def evC6 : FitEvent := ⟨540, 1020, 0, [⟨none, 600, 630⟩]⟩

/-- Witness for C6 at the spec's scenario: the latest end datetime on day 0 of
`evC6` is 10:30 (630), and it is the maximum among that day's entries. -/
theorem find_latest_entry_end_dt_spec_witness :
    find_latest_entry_end_dt (.event evC6) (some 0) = .ok (some 630) ∧
    (∃ t ∈ matchingDayEntries evC6 0, t.endDt = 630) ∧
    (∀ t ∈ matchingDayEntries evC6 0, t.endDt ≤ 630) := by
  obtain ⟨⟨r, hr, -, hsome⟩, -⟩ :=
    find_latest_entry_end_dt_spec evC6 0 ⟨0, 0, []⟩ (by decide)
  have hval : find_latest_entry_end_dt (.event evC6) (some 0) = .ok (some 630) := rfl
  have hreq : r = some 630 := by
    have := hr.symm.trans hval
    exact Except.ok.inj this
  obtain ⟨h1, h2, -⟩ := hsome 630 hreq
  exact ⟨hval, h1, h2⟩

/-! ### Cascade shifter -/

/-- The entry type enum `TimetableEntryType`. -/
inductive TTEntryType where
  | SESSION_BLOCK
  | CONTRIBUTION
  | BREAK
deriving DecidableEq

/-- A timetable entry as seen by `shift_following_entries`: identity, parent
link, type, owning session (for `SESSION_BLOCK` entries) and interval. -/
structure ShiftEntry where
  id : Nat
  parent : Option Nat
  type : TTEntryType
  sessionId : Option Nat
  startDt : Int
  endDt : Int
deriving DecidableEq

/-- Modelled from the spec: `TimetableEntry.siblings_query` (entry model not
under `src/`) — "sibling entries (same parent/container)": the other entries
of the event sharing the entry's parent. -/
def siblings_query (allEntries : List ShiftEntry) (entry : ShiftEntry) :
    List ShiftEntry :=
  allEntries.filter (fun s => decide (s.parent = entry.parent ∧ s.id ≠ entry.id))

/-- Modelled from the spec: `TimetableEntry.move(start_dt)` (entry model not
under `src/`) — reschedules the entry to the new start, preserving its
duration. -/
def ShiftEntry.move (s : ShiftEntry) (newStart : Int) : ShiftEntry :=
  { s with startDt := newStart, endDt := newStart + (s.endDt - s.startDt) }

/-- The entries that `shift_following_entries` actually moves: siblings whose
`start_dt >= entry.end_dt`.  No session restriction appears here because the
source discards the result of its second `query.filter(...)` call. -/
def followingSibling (entry s : ShiftEntry) : Prop :=
  s.parent = entry.parent ∧ s.id ≠ entry.id ∧ entry.endDt ≤ s.startDt

instance (entry s : ShiftEntry) : Decidable (followingSibling entry s) := by
  unfold followingSibling
  infer_instance

/-- Source `shift_following_entries(entry, shift, session_=None)` (util.py lines
302–312), returning the Python return value (`none` models Python `None`)
paired with the updated entry list.  Two details of the source are kept
faithfully: on lines 306–307 the result of `query.filter(...)` is computed but
never assigned, so the session restriction has no effect on `entries`; and
after the `for` loop the function ends without a `return` statement, so Python
returns `None`. -/
def shift_following_entries (allEntries : List ShiftEntry) (entry : ShiftEntry)
    (shift : Int) (session_ : Option Nat) :
    Option (List ShiftEntry) × List ShiftEntry :=
  let query := (siblings_query allEntries entry).filter
    (fun s => decide (entry.endDt ≤ s.startDt))
  let _sessionFiltered :=
    if session_.isSome ∧ entry.parent = none then
      query.filter (fun s =>
        decide (s.type = .SESSION_BLOCK ∧ s.sessionId = session_))
    else query
  let entries := query
  if entries.isEmpty then (some [], allEntries)
  else
    (none, allEntries.map (fun s =>
      if s ∈ entries then s.move (s.startDt + shift) else s))

/-- Membership in the query built by `shift_following_entries`. -/
theorem mem_shift_query {allEntries : List ShiftEntry} {entry s : ShiftEntry} :
    s ∈ (siblings_query allEntries entry).filter
        (fun s => decide (entry.endDt ≤ s.startDt)) ↔
      s ∈ allEntries ∧ followingSibling entry s := by
  simp only [siblings_query, List.mem_filter, decide_eq_true_eq, followingSibling]
  tauto

theorem zip_map_self {α β : Type} (l : List α) (f : α → β) :
    l.zip (l.map f) = l.map (fun x => (x, f x)) := by
  induction l with
  | nil => rfl
  | cons a l ih => simp [ih]

theorem zip_self {α : Type} (l : List α) : l.zip l = l.map (fun x => (x, x)) := by
  induction l with
  | nil => rfl
  | cons a l ih => simp [ih]

/-! ### Claims C2, C3, C4 -/

/-- The trigger entry used in the shifter counterexamples: a top-level break
10:00–10:30. -/
def trigBreak : ShiftEntry := ⟨0, none, .BREAK, none, 600, 630⟩

/-- A top-level contribution sibling 11:00–11:15, belonging to no session. -/
def sibContrib : ShiftEntry := ⟨1, none, .CONTRIBUTION, none, 660, 675⟩

/-- A top-level break sibling 09:00–09:30, starting before the trigger. -/
def sibBefore : ShiftEntry := ⟨2, none, .BREAK, none, 540, 570⟩

/-- C2 (code_bug evidence): with a session given and a top-level trigger
entry, the source still moves a following sibling that is a CONTRIBUTION (not
a SESSION_BLOCK of that session), because the result of the session
`query.filter(...)` is never assigned: the sibling at 11:00–11:15 is moved to
11:30–11:45. -/
theorem shift_session_filter_dropped :
    (shift_following_entries [trigBreak, sibContrib] trigBreak 30 (some 5)).2 =
      [trigBreak, ⟨1, none, .CONTRIBUTION, none, 690, 705⟩] ∧
    sibContrib.type ≠ TTEntryType.SESSION_BLOCK :=
  ⟨rfl, by decide⟩

/-- C3 (code_bug evidence): with a matching following sibling, the query is
non-empty, the sibling is moved, and yet the function returns Python `None`
(not the list of shifted entries): the loop is not followed by a `return`. -/
theorem shift_missing_return :
    (shift_following_entries [trigBreak, sibContrib] trigBreak 30 none).1 = none ∧
    (siblings_query [trigBreak, sibContrib] trigBreak).filter
        (fun s => decide (trigBreak.endDt ≤ s.startDt)) ≠ [] ∧
    (shift_following_entries [trigBreak, sibContrib] trigBreak 30 none).2 ≠
      [trigBreak, sibContrib] :=
  ⟨rfl, by decide, by decide⟩

/-- C4: pairing each entry of the store with its post-call value,
`shift_following_entries` leaves every entry that is not a following sibling
(in particular every sibling with `start_dt < entry.end_dt`) unchanged, and
moves every sibling with `start_dt >= entry.end_dt` forward by exactly
`shift`, preserving its duration. -/
theorem shift_following_entries_frame (allEntries : List ShiftEntry)
    (entry : ShiftEntry) (shift : Int) (session_ : Option Nat)
    (p : ShiftEntry × ShiftEntry)
    (hp : p ∈ allEntries.zip
      (shift_following_entries allEntries entry shift session_).2) :
    (¬ followingSibling entry p.1 → p.2 = p.1) ∧
    (followingSibling entry p.1 →
      p.2.startDt = p.1.startDt + shift ∧
      p.2.endDt - p.2.startDt = p.1.endDt - p.1.startDt) := by
  unfold shift_following_entries at hp
  simp only at hp
  by_cases hempty :
      ((siblings_query allEntries entry).filter
        (fun s => decide (entry.endDt ≤ s.startDt))).isEmpty
  · rw [if_pos hempty] at hp
    rw [zip_self] at hp
    obtain ⟨x, hx, hpx⟩ := List.mem_map.mp hp
    subst hpx
    refine ⟨fun _ => rfl, fun hfol => ?_⟩
    exfalso
    have hmem := mem_shift_query.mpr ⟨hx, hfol⟩
    rw [List.isEmpty_iff] at hempty
    rw [hempty] at hmem
    cases hmem
  · rw [if_neg hempty] at hp
    rw [zip_map_self] at hp
    obtain ⟨x, hx, hpx⟩ := List.mem_map.mp hp
    subst hpx
    constructor
    · intro hnot
      simp only
      rw [if_neg]
      intro hmem
      exact hnot (mem_shift_query.mp hmem).2
    · intro hfol
      simp only
      rw [if_pos (mem_shift_query.mpr ⟨hx, hfol⟩)]
      unfold ShiftEntry.move
      constructor
      · rfl
      · simp only
        ring
  
/-- Witness for C4 at the spec's scenario: trigger 10:00–10:30 shifted by
+30 min; the sibling at 11:00–11:15 ends up at 11:30–11:45 (duration kept),
and the sibling at 09:00–09:30 is untouched. -/
theorem shift_following_entries_frame_witness :
    ((⟨1, none, .CONTRIBUTION, none, 690, 705⟩ : ShiftEntry).startDt =
        sibContrib.startDt + 30 ∧
      (⟨1, none, .CONTRIBUTION, none, 690, 705⟩ : ShiftEntry).endDt -
          (⟨1, none, .CONTRIBUTION, none, 690, 705⟩ : ShiftEntry).startDt =
        sibContrib.endDt - sibContrib.startDt) ∧
    sibBefore = sibBefore := by
  constructor
  · exact (shift_following_entries_frame [sibBefore, trigBreak, sibContrib]
      trigBreak 30 none (sibContrib, ⟨1, none, .CONTRIBUTION, none, 690, 705⟩)
      (by decide)).2 (by decide)
  · exact (shift_following_entries_frame [sibBefore, trigBreak, sibContrib]
      trigBreak 30 none (sibBefore, sibBefore) (by decide)).1 (by decide)

/-! ### A stable sort and composition of two stable sorting passes

Python's `list.sort` is a stable sort; it is modelled as insertion sort,
which is stable by construction: `a` is inserted before the first already
placed element `b` with `r a b`, and the already placed elements all come
later in the original list. -/

/-- Stable insertion of `a` into `l` with respect to `r`. -/
def ordIns {α : Type} (r : α → α → Prop) [DecidableRel r] (a : α) :
    List α → List α
  | [] => [a]
  | b :: l => if r a b then a :: b :: l else b :: ordIns r a l

/-- Stable sort by `r` (insertion sort). -/
def stableSort {α : Type} (r : α → α → Prop) [DecidableRel r] : List α → List α
  | [] => []
  | a :: l => ordIns r a (stableSort r l)

/-- The lexicographic combination of a primary order `r2` with the tiebreak
`r1`: strictly smaller under `r2`, or equivalent under `r2` and below under
`r1`. -/
def lexComb {α : Type} (r2 r1 : α → α → Prop) (a b : α) : Prop :=
  r2 a b ∧ (¬ r2 b a ∨ r1 a b)

instance {α : Type} (r2 r1 : α → α → Prop) [DecidableRel r2] [DecidableRel r1] :
    DecidableRel (lexComb r2 r1) := fun a b => by
  unfold lexComb
  infer_instance

theorem mem_ordIns {α : Type} (r : α → α → Prop) [DecidableRel r] (a x : α)
    (l : List α) : x ∈ ordIns r a l ↔ x = a ∨ x ∈ l := by
  induction l with
  | nil => simp [ordIns]
  | cons b l ih =>
    by_cases h : r a b
    · simp only [ordIns, if_pos h, List.mem_cons]
    · simp only [ordIns, if_neg h, List.mem_cons, ih]
      tauto

theorem mem_stableSort {α : Type} (r : α → α → Prop) [DecidableRel r] (x : α)
    (l : List α) : x ∈ stableSort r l ↔ x ∈ l := by
  induction l with
  | nil => simp [stableSort]
  | cons a l ih =>
    simp only [stableSort, mem_ordIns, List.mem_cons, ih]

theorem pairwise_ordIns {α : Type} (r : α → α → Prop) [DecidableRel r]
    (htot : ∀ a b, r a b ∨ r b a) (htr : ∀ {a b c}, r a b → r b c → r a c)
    (a : α) (l : List α) (hl : l.Pairwise r) : (ordIns r a l).Pairwise r := by
  induction l with
  | nil => simp [ordIns]
  | cons b l ih =>
    rcases List.pairwise_cons.mp hl with ⟨hb, hl'⟩
    by_cases h : r a b
    · rw [ordIns, if_pos h]
      refine List.pairwise_cons.mpr ⟨?_, hl⟩
      intro x hx
      rcases List.mem_cons.mp hx with hx | hx
      · exact hx ▸ h
      · exact htr h (hb x hx)
    · rw [ordIns, if_neg h]
      refine List.pairwise_cons.mpr ⟨?_, ih hl'⟩
      intro x hx
      rcases (mem_ordIns r a x l).mp hx with hx | hx
      · subst hx
        rcases htot x b with hab | hba
        · exact absurd hab h
        · exact hba
      · exact hb x hx

theorem pairwise_stableSort {α : Type} (r : α → α → Prop) [DecidableRel r]
    (htot : ∀ a b, r a b ∨ r b a) (htr : ∀ {a b c}, r a b → r b c → r a c)
    (l : List α) : (stableSort r l).Pairwise r := by
  induction l with
  | nil => simp [stableSort]
  | cons a l ih => exact pairwise_ordIns r htot htr a _ ih

theorem ordIns_congr {α : Type} (r r' : α → α → Prop) [DecidableRel r]
    [DecidableRel r'] (a : α) (l : List α) (h : ∀ x ∈ l, r a x ↔ r' a x) :
    ordIns r a l = ordIns r' a l := by
  induction l with
  | nil => rfl
  | cons b l ih =>
    have hb := h b (List.mem_cons_self b l)
    by_cases hr : r a b
    · rw [ordIns, if_pos hr, ordIns, if_pos (hb.mp hr)]
    · rw [ordIns, if_neg hr, ordIns, if_neg (fun h' => hr (hb.mpr h'))]
      rw [ih (fun x hx => h x (List.mem_cons_of_mem b hx))]

theorem stableSort_congr {α : Type} (r r' : α → α → Prop) [DecidableRel r]
    [DecidableRel r'] (h : ∀ a b, r a b ↔ r' a b) (l : List α) :
    stableSort r l = stableSort r' l := by
  induction l with
  | nil => rfl
  | cons a l ih =>
    rw [stableSort, stableSort, ih, ordIns_congr r r' a _ (fun x _ => h a x)]

/-- Inserting `a` by the combined order commutes with inserting `b` by the
primary order, provided `a` is not below `b` under the tiebreak. -/
theorem ordIns_comm {α : Type} (r2 r1 : α → α → Prop) [DecidableRel r2]
    [DecidableRel r1] (tot2 : ∀ a b, r2 a b ∨ r2 b a)
    (tr2 : ∀ {a b c}, r2 a b → r2 b c → r2 a c) (a b : α) (hab : ¬ r1 a b)
    (u : List α) :
    ordIns r2 b (ordIns (lexComb r2 r1) a u) =
      ordIns (lexComb r2 r1) a (ordIns r2 b u) := by
  have hLab : lexComb r2 r1 a b ↔ (r2 a b ∧ ¬ r2 b a) := by
    unfold lexComb
    tauto
  induction u with
  | nil =>
    show ordIns r2 b [a] = ordIns (lexComb r2 r1) a [b]
    by_cases hba : r2 b a
    · rw [show ordIns r2 b [a] = b :: a :: ([] : List α) from if_pos hba]
      rw [show ordIns (lexComb r2 r1) a [b] =
        b :: ordIns (lexComb r2 r1) a [] from
        if_neg (fun hL => (hLab.mp hL).2 hba)]
      rfl
    · have h1 : r2 a b := (tot2 a b).resolve_right hba
      rw [show ordIns r2 b [a] = a :: ordIns r2 b ([] : List α) from
        if_neg hba]
      rw [show ordIns (lexComb r2 r1) a [b] = a :: b :: ([] : List α) from
        if_pos (hLab.mpr ⟨h1, hba⟩)]
      rfl
  | cons c u' ih =>
    by_cases hLac : lexComb r2 r1 a c <;> by_cases hbc : r2 b c
    · -- a goes before c, and b goes before c
      rw [show ordIns (lexComb r2 r1) a (c :: u') = a :: c :: u' from
        if_pos hLac]
      rw [show ordIns r2 b (c :: u') = b :: c :: u' from if_pos hbc]
      by_cases hba : r2 b a
      · have hnLab : ¬ lexComb r2 r1 a b := fun hL => (hLab.mp hL).2 hba
        rw [show ordIns r2 b (a :: c :: u') = b :: a :: c :: u' from
          if_pos hba]
        rw [show ordIns (lexComb r2 r1) a (b :: c :: u') =
          b :: ordIns (lexComb r2 r1) a (c :: u') from if_neg hnLab]
        rw [show ordIns (lexComb r2 r1) a (c :: u') = a :: c :: u' from
          if_pos hLac]
      · have h1 : r2 a b := (tot2 a b).resolve_right hba
        rw [show ordIns r2 b (a :: c :: u') =
          a :: ordIns r2 b (c :: u') from if_neg hba]
        rw [show ordIns r2 b (c :: u') = b :: c :: u' from if_pos hbc]
        rw [show ordIns (lexComb r2 r1) a (b :: c :: u') =
          a :: b :: c :: u' from if_pos (hLab.mpr ⟨h1, hba⟩)]
    · -- a goes before c, b goes further in
      have hba : ¬ r2 b a := by
        intro hba
        exact hbc (tr2 hba hLac.1)
      rw [show ordIns (lexComb r2 r1) a (c :: u') = a :: c :: u' from
        if_pos hLac]
      rw [show ordIns r2 b (a :: c :: u') = a :: ordIns r2 b (c :: u') from
        if_neg hba]
      rw [show ordIns r2 b (c :: u') = c :: ordIns r2 b u' from if_neg hbc]
      rw [show ordIns (lexComb r2 r1) a (c :: ordIns r2 b u') =
        a :: c :: ordIns r2 b u' from if_pos hLac]
    · -- b goes before c, a goes further in
      have hnLab : ¬ lexComb r2 r1 a b := by
        intro hL
        obtain ⟨h1, h2⟩ := hLab.mp hL
        have hac : r2 a c := tr2 h1 hbc
        have : r2 c a ∧ ¬ r1 a c := by
          unfold lexComb at hLac
          tauto
        exact h2 (tr2 hbc this.1)
      rw [show ordIns (lexComb r2 r1) a (c :: u') =
        c :: ordIns (lexComb r2 r1) a u' from if_neg hLac]
      rw [show ordIns r2 b (c :: ordIns (lexComb r2 r1) a u') =
        b :: c :: ordIns (lexComb r2 r1) a u' from if_pos hbc]
      rw [show ordIns r2 b (c :: u') = b :: c :: u' from if_pos hbc]
      rw [show ordIns (lexComb r2 r1) a (b :: c :: u') =
        b :: ordIns (lexComb r2 r1) a (c :: u') from if_neg hnLab]
      rw [show ordIns (lexComb r2 r1) a (c :: u') =
        c :: ordIns (lexComb r2 r1) a u' from if_neg hLac]
    · -- both go further in: reduces to the inner list
      rw [show ordIns (lexComb r2 r1) a (c :: u') =
        c :: ordIns (lexComb r2 r1) a u' from if_neg hLac]
      rw [show ordIns r2 b (c :: ordIns (lexComb r2 r1) a u') =
        c :: ordIns r2 b (ordIns (lexComb r2 r1) a u') from if_neg hbc]
      rw [show ordIns r2 b (c :: u') = c :: ordIns r2 b u' from if_neg hbc]
      rw [show ordIns (lexComb r2 r1) a (c :: ordIns r2 b u') =
        c :: ordIns (lexComb r2 r1) a (ordIns r2 b u') from if_neg hLac]
      rw [ih]

/-- Key stability lemma: stably sorting by `r2` after inserting `a` into a
list already sorted by `r1` equals inserting `a` by the combined order into
the `r2`-sorted list. -/
theorem stableSort_ordIns {α : Type} (r2 r1 : α → α → Prop) [DecidableRel r2]
    [DecidableRel r1] (tot2 : ∀ a b, r2 a b ∨ r2 b a)
    (tr2 : ∀ {a b c}, r2 a b → r2 b c → r2 a c)
    (tr1 : ∀ {a b c}, r1 a b → r1 b c → r1 a c) (a : α) (s : List α)
    (hs : s.Pairwise r1) :
    stableSort r2 (ordIns r1 a s) =
      ordIns (lexComb r2 r1) a (stableSort r2 s) := by
  induction s with
  | nil => rfl
  | cons b s' ih =>
    rcases List.pairwise_cons.mp hs with ⟨hb, hs'⟩
    by_cases hab : r1 a b
    · rw [show ordIns r1 a (b :: s') = a :: b :: s' from if_pos hab]
      show ordIns r2 a (stableSort r2 (b :: s')) =
        ordIns (lexComb r2 r1) a (stableSort r2 (b :: s'))
      apply ordIns_congr
      intro x hx
      have hx' : x ∈ b :: s' := (mem_stableSort r2 x (b :: s')).mp hx
      have h1 : r1 a x := by
        rcases List.mem_cons.mp hx' with h | h
        · rw [h]
          exact hab
        · exact tr1 hab (hb x h)
      unfold lexComb
      tauto
    · rw [show ordIns r1 a (b :: s') = b :: ordIns r1 a s' from if_neg hab]
      show ordIns r2 b (stableSort r2 (ordIns r1 a s')) = _
      rw [ih hs']
      rw [ordIns_comm r2 r1 tot2 tr2 a b hab]
      rfl

/-- Two stable sorting passes — first by the tiebreak `r1`, then by the
primary `r2` — equal one stable sort by their lexicographic combination. -/
theorem stableSort_stableSort {α : Type} (r2 r1 : α → α → Prop)
    [DecidableRel r2] [DecidableRel r1] (tot2 : ∀ a b, r2 a b ∨ r2 b a)
    (tr2 : ∀ {a b c}, r2 a b → r2 b c → r2 a c)
    (tot1 : ∀ a b, r1 a b ∨ r1 b a)
    (tr1 : ∀ {a b c}, r1 a b → r1 b c → r1 a c) (l : List α) :
    stableSort r2 (stableSort r1 l) = stableSort (lexComb r2 r1) l := by
  induction l with
  | nil => rfl
  | cons a l ih =>
    show stableSort r2 (ordIns r1 a (stableSort r1 l)) =
      ordIns (lexComb r2 r1) a (stableSort (lexComb r2 r1) l)
    rw [stableSort_ordIns r2 r1 tot2 tr2 tr1 a _
      (pairwise_stableSort r1 tot1 tr1 l), ih]

/-! ### The two sorting passes of `get_nested_timetable` (claim C7) -/

/-- A top-level entry as sorted by `get_nested_timetable`: its type, interval
and the title data used by `_entry_title_key`. -/
structure NTEntry where
  type : TTEntryType
  startDt : Int
  endDt : Int
  sessionCode : String
  fullTitle : String
  title : String
deriving DecidableEq

/-- The key `_entry_title_key(entry)` (util.py lines 348–352): `(session.code,
full_title)` for a SESSION_BLOCK entry and `('', title)` otherwise. -/
def entry_title_key (e : NTEntry) : String × String :=
  if e.type = .SESSION_BLOCK then (e.sessionCode, e.fullTitle)
  else ("", e.title)

/-- Python's lexicographic `<=` on a pair of strings. -/
def strPairLe (x y : String × String) : Prop :=
  x.1 < y.1 ∨ (x.1 = y.1 ∧ x.2 ≤ y.2)

/-- Python's lexicographic `<` on a pair of strings. -/
def strPairLt (x y : String × String) : Prop :=
  x.1 < y.1 ∨ (x.1 = y.1 ∧ x.2 < y.2)

instance (x y : String × String) : Decidable (strPairLe x y) := by
  unfold strPairLe
  infer_instance

instance (x y : String × String) : Decidable (strPairLt x y) := by
  unfold strPairLt
  infer_instance

/-- The first pass, `entries.sort(key=attrgetter('end_dt'), reverse=True)`:
`a` may precede `b` when `a.end_dt >= b.end_dt`. -/
def endDescLe (a b : NTEntry) : Prop := b.endDt ≤ a.endDt

/-- The second pass,
`entries.sort(key=lambda entry: (entry.start_dt, *_entry_title_key(entry)))`:
ascending lexicographic order on `(start_dt, title key)`. -/
def startTitleLe (a b : NTEntry) : Prop :=
  a.startDt < b.startDt ∨
    (a.startDt = b.startDt ∧ strPairLe (entry_title_key a) (entry_title_key b))

instance (a b : NTEntry) : Decidable (endDescLe a b) := by
  unfold endDescLe
  infer_instance

instance (a b : NTEntry) : Decidable (startTitleLe a b) := by
  unfold startTitleLe
  infer_instance

/-- The two-pass ordering performed at util.py lines 408–409. -/
def nested_timetable_sort (l : List NTEntry) : List NTEntry :=
  stableSort startTitleLe (stableSort endDescLe l)

/-- The single sort key the claim compares against: ascending
`(start_dt, title key)` with descending `end_dt` as final tiebreak. -/
def singleKeyLe (a b : NTEntry) : Prop :=
  a.startDt < b.startDt ∨
    (a.startDt = b.startDt ∧
      (strPairLt (entry_title_key a) (entry_title_key b) ∨
        (entry_title_key a = entry_title_key b ∧ b.endDt ≤ a.endDt)))

instance (a b : NTEntry) : Decidable (singleKeyLe a b) := by
  unfold singleKeyLe
  infer_instance

theorem strPairLe_total (x y : String × String) : strPairLe x y ∨ strPairLe y x := by
  unfold strPairLe
  rcases lt_trichotomy x.1 y.1 with h | h | h
  · exact Or.inl (Or.inl h)
  · rcases le_total x.2 y.2 with h2 | h2
    · exact Or.inl (Or.inr ⟨h, h2⟩)
    · exact Or.inr (Or.inr ⟨h.symm, h2⟩)
  · exact Or.inr (Or.inl h)

theorem strPairLe_trans {x y z : String × String} (h1 : strPairLe x y)
    (h2 : strPairLe y z) : strPairLe x z := by
  unfold strPairLe at *
  rcases h1 with h1 | ⟨h1, h1'⟩ <;> rcases h2 with h2 | ⟨h2, h2'⟩
  · exact Or.inl (lt_trans h1 h2)
  · exact Or.inl (h2 ▸ h1)
  · exact Or.inl (h1 ▸ h2)
  · exact Or.inr ⟨h1.trans h2, le_trans h1' h2'⟩

theorem strPairLt_iff (x y : String × String) :
    strPairLt x y ↔ strPairLe x y ∧ ¬ strPairLe y x := by
  unfold strPairLt strPairLe
  constructor
  · rintro (h | ⟨h, h'⟩)
    · refine ⟨Or.inl h, ?_⟩
      rintro (h2 | ⟨h2, -⟩)
      · exact absurd h2 (lt_asymm h)
      · exact absurd (h2 ▸ h) (lt_irrefl y.1)
    · refine ⟨Or.inr ⟨h, le_of_lt h'⟩, ?_⟩
      rintro (h2 | ⟨-, h2'⟩)
      · exact absurd (h ▸ h2) (lt_irrefl x.1)
      · exact absurd h' (not_lt_of_le h2')
  · rintro ⟨h1 | ⟨h1, h1'⟩, h2⟩
    · exact Or.inl h1
    · refine Or.inr ⟨h1, lt_of_le_of_ne h1' ?_⟩
      intro heq
      exact h2 (Or.inr ⟨h1.symm, le_of_eq heq.symm⟩)

theorem strPairLe_antisymm {x y : String × String} (h1 : strPairLe x y)
    (h2 : strPairLe y x) : x = y := by
  unfold strPairLe at *
  rcases h1 with h1 | ⟨h1, h1'⟩ <;> rcases h2 with h2 | ⟨h2, h2'⟩
  · exact absurd h2 (lt_asymm h1)
  · exact absurd (h2 ▸ h1) (lt_irrefl x.1)
  · exact absurd (h1 ▸ h2) (lt_irrefl y.1)
  · exact Prod.ext h1 (le_antisymm h1' h2')

theorem strPairLe_refl (x : String × String) : strPairLe x x :=
  Or.inr ⟨rfl, le_refl _⟩

theorem startTitleLe_total (a b : NTEntry) : startTitleLe a b ∨ startTitleLe b a := by
  unfold startTitleLe
  rcases lt_trichotomy a.startDt b.startDt with h | h | h
  · exact Or.inl (Or.inl h)
  · rcases strPairLe_total (entry_title_key a) (entry_title_key b) with h2 | h2
    · exact Or.inl (Or.inr ⟨h, h2⟩)
    · exact Or.inr (Or.inr ⟨h.symm, h2⟩)
  · exact Or.inr (Or.inl h)

theorem startTitleLe_trans {a b c : NTEntry} (h1 : startTitleLe a b)
    (h2 : startTitleLe b c) : startTitleLe a c := by
  unfold startTitleLe at *
  rcases h1 with h1 | ⟨h1, h1'⟩ <;> rcases h2 with h2 | ⟨h2, h2'⟩
  · exact Or.inl (lt_trans h1 h2)
  · exact Or.inl (h2 ▸ h1)
  · exact Or.inl (h1 ▸ h2)
  · exact Or.inr ⟨h1.trans h2, strPairLe_trans h1' h2'⟩

theorem endDescLe_total (a b : NTEntry) : endDescLe a b ∨ endDescLe b a :=
  le_total b.endDt a.endDt

theorem endDescLe_trans {a b c : NTEntry} (h1 : endDescLe a b)
    (h2 : endDescLe b c) : endDescLe a c :=
  le_trans h2 h1

theorem lexComb_total {α : Type} (r2 r1 : α → α → Prop)
    (tot2 : ∀ a b, r2 a b ∨ r2 b a) (tot1 : ∀ a b, r1 a b ∨ r1 b a) (a b : α) :
    lexComb r2 r1 a b ∨ lexComb r2 r1 b a := by
  unfold lexComb
  rcases tot2 a b with h2 | h2 <;> rcases tot1 a b with h1 | h1 <;>
    by_cases h2' : r2 b a <;> tauto

theorem lexComb_trans {α : Type} {r2 r1 : α → α → Prop}
    (tr2 : ∀ {a b c}, r2 a b → r2 b c → r2 a c)
    (tr1 : ∀ {a b c}, r1 a b → r1 b c → r1 a c) {a b c : α}
    (h1 : lexComb r2 r1 a b) (h2 : lexComb r2 r1 b c) : lexComb r2 r1 a c := by
  obtain ⟨hab, hab'⟩ := h1
  obtain ⟨hbc, hbc'⟩ := h2
  refine ⟨tr2 hab hbc, ?_⟩
  by_cases hca : r2 c a
  · right
    have hcb : r2 c b := tr2 hca hab
    have hba : r2 b a := tr2 hbc hca
    have h1' : r1 a b := hab'.resolve_left (fun h => h hba)
    have h2' : r1 b c := hbc'.resolve_left (fun h => h hcb)
    exact tr1 h1' h2'
  · exact Or.inl hca

/-- The combination of the two passes' orders is exactly the single-pass key
order `(start_dt, title key, end_dt descending)`. -/
theorem lexComb_eq_singleKeyLe (a b : NTEntry) :
    lexComb startTitleLe endDescLe a b ↔ singleKeyLe a b := by
  unfold lexComb singleKeyLe
  rcases lt_trichotomy a.startDt b.startDt with h | h | h
  · constructor
    · intro _
      exact Or.inl h
    · intro _
      refine ⟨Or.inl h, Or.inl ?_⟩
      unfold startTitleLe
      rintro (h2 | ⟨h2, -⟩)
      · exact lt_asymm h h2
      · exact absurd (h2 ▸ h) (lt_irrefl _)
  · have hab : startTitleLe a b ↔
        strPairLe (entry_title_key a) (entry_title_key b) := by
      unfold startTitleLe
      constructor
      · rintro (h1 | ⟨-, h1⟩)
        · exact absurd (h ▸ h1) (lt_irrefl _)
        · exact h1
      · intro h1
        exact Or.inr ⟨h, h1⟩
    have hba : startTitleLe b a ↔
        strPairLe (entry_title_key b) (entry_title_key a) := by
      unfold startTitleLe
      constructor
      · rintro (h1 | ⟨-, h1⟩)
        · exact absurd (h ▸ h1) (lt_irrefl _)
        · exact h1
      · intro h1
        exact Or.inr ⟨h.symm, h1⟩
    rw [hab, hba]
    constructor
    · rintro ⟨hpl, hnpl | hend⟩
      · exact Or.inr ⟨h, Or.inl ((strPairLt_iff _ _).mpr ⟨hpl, hnpl⟩)⟩
      · by_cases hpl' : strPairLe (entry_title_key b) (entry_title_key a)
        · exact Or.inr ⟨h, Or.inr ⟨strPairLe_antisymm hpl hpl', hend⟩⟩
        · exact Or.inr ⟨h, Or.inl ((strPairLt_iff _ _).mpr ⟨hpl, hpl'⟩)⟩
    · rintro (h1 | ⟨-, h1 | ⟨heq, hend⟩⟩)
      · exact absurd (h ▸ h1) (lt_irrefl _)
      · obtain ⟨hle, hnle⟩ := (strPairLt_iff _ _).mp h1
        exact ⟨hle, Or.inl hnle⟩
      · refine ⟨?_, Or.inr hend⟩
        rw [heq]
        exact strPairLe_refl _
  · constructor
    · rintro ⟨h1 | ⟨h1, -⟩, -⟩
      · exact (lt_asymm h1 h).elim
      · exact absurd (h1 ▸ h) (lt_irrefl _)
    · rintro (h1 | ⟨h1, -⟩)
      · exact (lt_asymm h1 h).elim
      · exact absurd (h1 ▸ h) (lt_irrefl _)

theorem singleKeyLe_total (a b : NTEntry) : singleKeyLe a b ∨ singleKeyLe b a := by
  rcases lexComb_total startTitleLe endDescLe startTitleLe_total
      endDescLe_total a b with h | h
  · exact Or.inl ((lexComb_eq_singleKeyLe a b).mp h)
  · exact Or.inr ((lexComb_eq_singleKeyLe b a).mp h)

theorem singleKeyLe_trans {a b c : NTEntry} (h1 : singleKeyLe a b)
    (h2 : singleKeyLe b c) : singleKeyLe a c :=
  (lexComb_eq_singleKeyLe a c).mp
    (@lexComb_trans NTEntry startTitleLe endDescLe
      startTitleLe_trans endDescLe_trans a b c
      ((lexComb_eq_singleKeyLe a b).mpr h1) ((lexComb_eq_singleKeyLe b c).mpr h2))

/-- C7: the two-pass stable sorting of `get_nested_timetable` (stable sort by
`end_dt` descending, then stable sort by `(start_dt, title key)` ascending)
equals one stable sort by the single key `(start_dt, title key, end_dt
descending)`; consequently consecutive output entries have non-decreasing
`start_dt`, and non-decreasing title keys whenever the starts are equal. -/
theorem nested_timetable_sort_single_pass (l : List NTEntry) :
    nested_timetable_sort l = stableSort singleKeyLe l ∧
    (nested_timetable_sort l).Chain' (fun e1 e2 =>
      e1.startDt ≤ e2.startDt ∧
        (e1.startDt = e2.startDt →
          strPairLe (entry_title_key e1) (entry_title_key e2))) := by
  have heq : nested_timetable_sort l = stableSort singleKeyLe l := by
    unfold nested_timetable_sort
    rw [stableSort_stableSort startTitleLe endDescLe startTitleLe_total
      startTitleLe_trans endDescLe_total endDescLe_trans l]
    exact stableSort_congr _ _ lexComb_eq_singleKeyLe l
  refine ⟨heq, ?_⟩
  rw [heq]
  have hpair := pairwise_stableSort singleKeyLe singleKeyLe_total
    singleKeyLe_trans l
  refine List.Pairwise.chain' (List.Pairwise.imp ?_ hpair)
  intro e1 e2 hkey
  rcases hkey with h | ⟨h, hk⟩
  · refine ⟨le_of_lt h, fun heq2 => absurd (heq2 ▸ h) (lt_irrefl _)⟩
  · refine ⟨le_of_eq h, fun _ => ?_⟩
    rcases hk with hk | ⟨hk, -⟩
    · exact ((strPairLt_iff _ _).mp hk).1
    · rw [hk]
      exact strPairLe_refl _

/-! ### Location-disclosure conditions (claim C10) -/

/-- A direct child of a top-level entry: only its object's
`inherit_location` flag matters here. -/
structure LocChild where
  inheritLocation : Bool
deriving DecidableEq

/-- A top-level entry as seen by
`get_nested_timetable_location_conditions`: identity, type, the object's
`inherit_location`, the owning session's `inherit_location` (used for
SESSION_BLOCK entries) and the children's objects. -/
structure LocEntry where
  id : Nat
  type : TTEntryType
  inheritLocation : Bool
  sessionInheritLocation : Bool
  children : List LocChild
deriving DecidableEq

/-- Source `get_nested_timetable_location_conditions(entries)` (util.py lines
414–433): the `show_siblings_location` flag and the `show_children_location`
dict, the latter as the association list built by the comprehension (in a
Python dict the LAST binding of a key wins). -/
def get_nested_timetable_location_conditions (entries : List LocEntry) :
    Bool × List (Nat × Bool) :=
  (entries.any (fun e =>
      !e.inheritLocation ||
        (decide (e.type = .SESSION_BLOCK) && e.inheritLocation &&
          !e.sessionInheritLocation)),
   entries.map (fun e =>
      (e.id, !(e.children.all (fun c => c.inheritLocation)))))

/-- Lookup in a Python dict materialised as its association list: the last
binding of the key wins. -/
def dictGet (l : List (Nat × Bool)) (k : Nat) : Option Bool :=
  (l.reverse.find? (fun p => p.1 == k)).map (fun p => p.2)

theorem dictGet_eq_of_nodup {α : Type} (key : α → Nat) (f : α → Bool) :
    ∀ (l : List α), (l.map key).Nodup → ∀ e ∈ l,
      dictGet (l.map (fun x => (key x, f x))) (key e) = some (f e) := by
  intro l
  induction l with
  | nil =>
    intro _ e he
    cases he
  | cons a l ih =>
    intro hk e he
    rw [List.map_cons] at hk
    obtain ⟨hnotin, hk'⟩ := List.nodup_cons.mp hk
    unfold dictGet
    rw [List.map_cons, List.reverse_cons, List.find?_append]
    rcases List.mem_cons.mp he with rfl | he
    · have hnone : ((l.map (fun x => (key x, f x))).reverse.find?
          (fun p => p.1 == key e)) = none := by
        rw [List.find?_eq_none]
        intro p hp
        rw [List.mem_reverse] at hp
        obtain ⟨x, hx, rfl⟩ := List.mem_map.mp hp
        intro hb
        have hxk : key x = key e := by simpa using hb
        exact hnotin (hxk ▸ List.mem_map_of_mem key hx)
      rw [hnone]
      simp [List.find?]
    · have hrec := ih hk' e he
      unfold dictGet at hrec
      cases hf : (l.map (fun x => (key x, f x))).reverse.find?
          (fun p => p.1 == key e) with
      | none =>
        rw [hf] at hrec
        simp at hrec
      | some p =>
        rw [hf] at hrec
        simpa using hrec

theorem not_all_inherit (cs : List LocChild) :
    (!(cs.all (fun c => c.inheritLocation))) =
      decide (∃ c ∈ cs, c.inheritLocation = false) := by
  induction cs with
  | nil => simp
  | cons c cs ih =>
    cases h : c.inheritLocation <;> simp [h, ih]

/-- C10: `show_siblings_location` is true exactly when some entry does not
inherit its location or is a SESSION_BLOCK entry inheriting its location from
a session that does not inherit its own; and (for distinct entry ids) the
`show_children_location` dict maps each entry's id to whether some direct
child does not inherit its location (hence to `false` for an entry without
children). -/
theorem nested_timetable_location_conditions_spec (entries : List LocEntry)
    (hids : (entries.map (fun e => e.id)).Nodup) :
    ((get_nested_timetable_location_conditions entries).1 = true ↔
      ∃ e ∈ entries, e.inheritLocation = false ∨
        (e.type = .SESSION_BLOCK ∧ e.inheritLocation = true ∧
          e.sessionInheritLocation = false)) ∧
    ∀ e ∈ entries,
      dictGet (get_nested_timetable_location_conditions entries).2 e.id =
        some (decide (∃ c ∈ e.children, c.inheritLocation = false)) := by
  constructor
  · unfold get_nested_timetable_location_conditions
    rw [List.any_eq_true]
    constructor
    · rintro ⟨e, he, hcond⟩
      refine ⟨e, he, ?_⟩
      cases hinh : e.inheritLocation <;> cases htyp : e.type <;>
        cases hsess : e.sessionInheritLocation <;>
          simp [hinh, htyp, hsess] at hcond ⊢
    · rintro ⟨e, he, hcond⟩
      refine ⟨e, he, ?_⟩
      cases hinh : e.inheritLocation <;> cases htyp : e.type <;>
        cases hsess : e.sessionInheritLocation <;>
          simp [hinh, htyp, hsess] at hcond ⊢
  · intro e he
    have h := dictGet_eq_of_nodup (fun e => e.id)
      (fun e => !(e.children.all (fun c => c.inheritLocation))) entries hids e he
    refine h.trans ?_
    show some (!(e.children.all (fun c => c.inheritLocation))) = _
    rw [not_all_inherit]

/-- A SESSION_BLOCK entry inheriting its location from a session with a
custom location; its only child inherits. -/
def lcBlock : LocEntry := ⟨1, .SESSION_BLOCK, true, false, [⟨true⟩]⟩

/-- A BREAK entry inheriting everything, with one child that does not
inherit its location. -/
def lcBreak : LocEntry := ⟨2, .BREAK, true, true, [⟨false⟩]⟩

/-- Witness for C10: on `[lcBlock, lcBreak]` the sibling flag is true (the
block inherits from a session with a custom location) and the children map
sends entry 2 to `true` (its child has a custom location) and entry 1 to
`false`. -/
theorem nested_timetable_location_conditions_spec_witness :
    (get_nested_timetable_location_conditions [lcBlock, lcBreak]).1 = true ∧
    dictGet (get_nested_timetable_location_conditions [lcBlock, lcBreak]).2 2 =
      some true ∧
    dictGet (get_nested_timetable_location_conditions [lcBlock, lcBreak]).2 1 =
      some false := by
  obtain ⟨hsib, hchild⟩ :=
    nested_timetable_location_conditions_spec [lcBlock, lcBreak] (by decide)
  refine ⟨?_, ?_, ?_⟩
  · exact hsib.mpr ⟨lcBlock, by decide, by decide⟩
  · exact (hchild lcBreak (by decide)).trans (by decide)
  · exact (hchild lcBlock (by decide)).trans (by decide)

/-! ### Time-change notification builder (claim C9) -/

/-- A changed object in the `changes` mapping: an `Event`, a `SessionBlock`,
or any other schedulable object (contribution, break); non-event objects
carry the id of their timetable entry. -/
inductive ChangedObj where
  | event (id : Nat)
  | sessionBlock (id : Nat) (entryId : Nat)
  | other (id : Nat) (entryId : Nat)
deriving DecidableEq

/-- One change record: the optional `(old, new)` deltas stored under the
`start_dt` and `end_dt` keys. -/
structure TimeChange where
  startDt : Option (Int × Int)
  endDt : Option (Int × Int)
deriving DecidableEq

/-- The `entry` argument: its underlying object and the ids of its
children's timetable entries. -/
structure EntryArg where
  object : ChangedObj
  childEntryIds : List Nat
deriving DecidableEq

/-- The messages built by `get_time_changes_notifications`; `format_time` and
the i18n strings are abstracted into constructors carrying the new time. -/
inductive TimeNotif where
  | eventStart (t : Int)
  | eventEnd (t : Int)
  | blockStart (t : Int)
  | blockEnd (t : Int)
deriving DecidableEq

/-- The skip conditions at the top of the loop of
`get_time_changes_notifications` (util.py lines 318–322): with an `entry`
given, skip the entry's own object, and skip any non-`Event` object whose
timetable entry is among the entry's children. -/
def skipChange (entry : Option EntryArg) (obj : ChangedObj) : Bool :=
  match entry with
  | none => false
  | some en =>
    decide (obj = en.object) ||
      (match obj with
       | .event _ => false
       | .sessionBlock _ eid => decide (eid ∈ en.childEntryIds)
       | .other _ eid => decide (eid ∈ en.childEntryIds))

/-- Source `get_time_changes_notifications(changes, tzinfo, entry=None)` (util.py
lines 315–344); a raised `ValueError('Invalid change …')` is `.error ()`.
For an object that is neither an `Event` nor a `SessionBlock`, `msg` stays
`None` and nothing is appended and nothing is raised. -/
def get_time_changes_notifications (changes : List (ChangedObj × TimeChange))
    (entry : Option EntryArg) : Except Unit (List TimeNotif) :=
  match changes with
  | [] => .ok []
  | (obj, change) :: rest =>
    if skipChange entry obj then get_time_changes_notifications rest entry
    else
      match obj with
      | .event _ =>
        match change.startDt with
        | some p => do
          let l ← get_time_changes_notifications rest entry
          return .eventStart p.2 :: l
        | none =>
          match change.endDt with
          | some p => do
            let l ← get_time_changes_notifications rest entry
            return .eventEnd p.2 :: l
          | none => .error ()
      | .sessionBlock _ _ =>
        match change.startDt with
        | some p => do
          let l ← get_time_changes_notifications rest entry
          return .blockStart p.2 :: l
        | none =>
          match change.endDt with
          | some p => do
            let l ← get_time_changes_notifications rest entry
            return .blockEnd p.2 :: l
          | none => .error ()
      | .other _ _ => get_time_changes_notifications rest entry

/-- Whether the object is an `Event` or a `SessionBlock` — the only kinds for
which the source builds a message or can raise. -/
def isEventOrBlock : ChangedObj → Prop
  | .event _ => True
  | .sessionBlock _ _ => True
  | .other _ _ => False

instance : DecidablePred isEventOrBlock := fun o =>
  match o with
  | .event _ => isTrue trivial
  | .sessionBlock _ _ => isTrue trivial
  | .other _ _ => isFalse (fun h => h)

/-- The message contributed by one change record when no failure occurs:
none for skipped objects and for objects that are neither events nor session
blocks; `start_dt` takes precedence over `end_dt`. -/
def expectedNotif (entry : Option EntryArg) (p : ChangedObj × TimeChange) :
    Option TimeNotif :=
  if skipChange entry p.1 then none
  else
    match p.1 with
    | .event _ =>
      match p.2.startDt with
      | some q => some (.eventStart q.2)
      | none =>
        match p.2.endDt with
        | some q => some (.eventEnd q.2)
        | none => none
    | .sessionBlock _ _ =>
      match p.2.startDt with
      | some q => some (.blockStart q.2)
      | none =>
        match p.2.endDt with
        | some q => some (.blockEnd q.2)
        | none => none
    | .other _ _ => none

/-- C9 (counterexample): a changed object that is neither an `Event` nor a
`SessionBlock`, with a record containing neither a `start_dt` nor an `end_dt`
delta, does NOT make the call raise: it returns an empty message list. -/
theorem time_changes_no_error_for_other_obj :
    get_time_changes_notifications [(ChangedObj.other 7 3, ⟨none, none⟩)] none =
      .ok [] := rfl

/-- C9 (amended): the call raises exactly when some NON-SKIPPED changed
`Event` or `SessionBlock` has a record with neither a `start_dt` nor an
`end_dt` delta (objects of other types never raise), and a successful call
returns exactly the messages of the non-skipped `Event` and `SessionBlock`
records, in order. -/
theorem get_time_changes_notifications_spec
    (changes : List (ChangedObj × TimeChange)) (entry : Option EntryArg) :
    (get_time_changes_notifications changes entry = .error () ↔
      ∃ p ∈ changes, skipChange entry p.1 = false ∧ isEventOrBlock p.1 ∧
        p.2.startDt = none ∧ p.2.endDt = none) ∧
    ∀ l, get_time_changes_notifications changes entry = .ok l →
      l = changes.filterMap (expectedNotif entry) := by
  induction changes with
  | nil =>
    constructor
    · simp [get_time_changes_notifications]
    · intro l hl
      simp only [get_time_changes_notifications, Except.ok.injEq] at hl
      simp [← hl]
  | cons p rest ih =>
    obtain ⟨obj, change⟩ := p
    obtain ⟨ihErr, ihOk⟩ := ih
    cases hskip : skipChange entry obj with
    | true =>
      have hstep : get_time_changes_notifications ((obj, change) :: rest) entry =
          get_time_changes_notifications rest entry := by
        simp [get_time_changes_notifications, hskip]
      have hexp : expectedNotif entry (obj, change) = none := by
        simp [expectedNotif, hskip]
      constructor
      · rw [hstep, ihErr]
        constructor
        · rintro ⟨q, hq, h⟩
          exact ⟨q, List.mem_cons_of_mem _ hq, h⟩
        · rintro ⟨q, hq, h⟩
          rcases List.mem_cons.mp hq with rfl | hq
          · rw [hskip] at h
            exact absurd h.1 (by simp)
          · exact ⟨q, hq, h⟩
      · intro l hl
        rw [hstep] at hl
        rw [List.filterMap_cons, hexp]
        exact ihOk l hl
    | false =>
      cases obj with
      | other i e =>
        have hstep : get_time_changes_notifications
            ((ChangedObj.other i e, change) :: rest) entry =
            get_time_changes_notifications rest entry := by
          simp [get_time_changes_notifications, hskip]
        have hexp : expectedNotif entry (ChangedObj.other i e, change) = none := by
          simp [expectedNotif, hskip]
        constructor
        · rw [hstep, ihErr]
          constructor
          · rintro ⟨q, hq, h⟩
            exact ⟨q, List.mem_cons_of_mem _ hq, h⟩
          · rintro ⟨q, hq, h⟩
            rcases List.mem_cons.mp hq with rfl | hq
            · exact absurd h.2.1 (by simp [isEventOrBlock])
            · exact ⟨q, hq, h⟩
        · intro l hl
          rw [hstep] at hl
          rw [List.filterMap_cons, hexp]
          exact ihOk l hl
      | event i =>
        cases hs : change.startDt with
        | some q =>
          have hexp : expectedNotif entry (ChangedObj.event i, change) =
              some (.eventStart q.2) := by
            simp [expectedNotif, hskip, hs]
          cases hrec : get_time_changes_notifications rest entry with
          | error u =>
            cases u
            have hstep : get_time_changes_notifications
                ((ChangedObj.event i, change) :: rest) entry = .error () := by
              simp [get_time_changes_notifications, hskip, hs, hrec, bind,
                Except.bind]
            constructor
            · rw [hstep]
              simp only [true_iff]
              obtain ⟨q', hq', h'⟩ := ihErr.mp hrec
              exact ⟨q', List.mem_cons_of_mem _ hq', h'⟩
            · intro l hl
              rw [hstep] at hl
              exact absurd hl (by simp)
          | ok l' =>
            have hstep : get_time_changes_notifications
                ((ChangedObj.event i, change) :: rest) entry =
                .ok (.eventStart q.2 :: l') := by
              simp [get_time_changes_notifications, hskip, hs, hrec, bind,
                Except.bind, pure, Except.pure]
            rw [hrec] at ihErr
            simp only [show (Except.ok l' : Except Unit (List TimeNotif)) ≠
              .error () from by simp, false_iff] at ihErr
            constructor
            · rw [hstep]
              simp only [show (Except.ok (TimeNotif.eventStart q.2 :: l') :
                Except Unit (List TimeNotif)) ≠ .error () from by simp,
                false_iff]
              rintro ⟨q', hq', h'⟩
              rcases List.mem_cons.mp hq' with rfl | hq'
              · exact absurd h'.2.2.1 (by simp [hs])
              · exact ihErr ⟨q', hq', h'⟩
            · intro l hl
              rw [hstep] at hl
              rw [List.filterMap_cons, hexp]
              have hl' : l = TimeNotif.eventStart q.2 :: l' := by
                simpa using hl.symm
              rw [hl', ihOk l' hrec]
        | none =>
          cases he : change.endDt with
          | some q =>
            have hexp : expectedNotif entry (ChangedObj.event i, change) =
                some (.eventEnd q.2) := by
              simp [expectedNotif, hskip, hs, he]
            cases hrec : get_time_changes_notifications rest entry with
            | error u =>
              cases u
              have hstep : get_time_changes_notifications
                  ((ChangedObj.event i, change) :: rest) entry = .error () := by
                simp [get_time_changes_notifications, hskip, hs, he, hrec,
                  bind, Except.bind]
              constructor
              · rw [hstep]
                simp only [true_iff]
                obtain ⟨q', hq', h'⟩ := ihErr.mp hrec
                exact ⟨q', List.mem_cons_of_mem _ hq', h'⟩
              · intro l hl
                rw [hstep] at hl
                exact absurd hl (by simp)
            | ok l' =>
              have hstep : get_time_changes_notifications
                  ((ChangedObj.event i, change) :: rest) entry =
                  .ok (.eventEnd q.2 :: l') := by
                simp [get_time_changes_notifications, hskip, hs, he, hrec,
                  bind, Except.bind, pure, Except.pure]
              rw [hrec] at ihErr
              simp only [show (Except.ok l' : Except Unit (List TimeNotif)) ≠
                .error () from by simp, false_iff] at ihErr
              constructor
              · rw [hstep]
                simp only [show (Except.ok (TimeNotif.eventEnd q.2 :: l') :
                  Except Unit (List TimeNotif)) ≠ .error () from by simp,
                  false_iff]
                rintro ⟨q', hq', h'⟩
                rcases List.mem_cons.mp hq' with rfl | hq'
                · exact absurd h'.2.2.2 (by simp [he])
                · exact ihErr ⟨q', hq', h'⟩
              · intro l hl
                rw [hstep] at hl
                rw [List.filterMap_cons, hexp]
                have hl' : l = TimeNotif.eventEnd q.2 :: l' := by
                  simpa using hl.symm
                rw [hl', ihOk l' hrec]
          | none =>
            have hstep : get_time_changes_notifications
                ((ChangedObj.event i, change) :: rest) entry = .error () := by
              simp [get_time_changes_notifications, hskip, hs, he]
            constructor
            · rw [hstep]
              simp only [true_iff]
              exact ⟨(ChangedObj.event i, change), List.mem_cons_self _ _,
                hskip, trivial, hs, he⟩
            · intro l hl
              rw [hstep] at hl
              exact absurd hl (by simp)
      | sessionBlock i e =>
        cases hs : change.startDt with
        | some q =>
          have hexp : expectedNotif entry (ChangedObj.sessionBlock i e, change) =
              some (.blockStart q.2) := by
            simp [expectedNotif, hskip, hs]
          cases hrec : get_time_changes_notifications rest entry with
          | error u =>
            cases u
            have hstep : get_time_changes_notifications
                ((ChangedObj.sessionBlock i e, change) :: rest) entry =
                .error () := by
              simp [get_time_changes_notifications, hskip, hs, hrec, bind,
                Except.bind]
            constructor
            · rw [hstep]
              simp only [true_iff]
              obtain ⟨q', hq', h'⟩ := ihErr.mp hrec
              exact ⟨q', List.mem_cons_of_mem _ hq', h'⟩
            · intro l hl
              rw [hstep] at hl
              exact absurd hl (by simp)
          | ok l' =>
            have hstep : get_time_changes_notifications
                ((ChangedObj.sessionBlock i e, change) :: rest) entry =
                .ok (.blockStart q.2 :: l') := by
              simp [get_time_changes_notifications, hskip, hs, hrec, bind,
                Except.bind, pure, Except.pure]
            rw [hrec] at ihErr
            simp only [show (Except.ok l' : Except Unit (List TimeNotif)) ≠
              .error () from by simp, false_iff] at ihErr
            constructor
            · rw [hstep]
              simp only [show (Except.ok (TimeNotif.blockStart q.2 :: l') :
                Except Unit (List TimeNotif)) ≠ .error () from by simp,
                false_iff]
              rintro ⟨q', hq', h'⟩
              rcases List.mem_cons.mp hq' with rfl | hq'
              · exact absurd h'.2.2.1 (by simp [hs])
              · exact ihErr ⟨q', hq', h'⟩
            · intro l hl
              rw [hstep] at hl
              rw [List.filterMap_cons, hexp]
              have hl' : l = TimeNotif.blockStart q.2 :: l' := by
                simpa using hl.symm
              rw [hl', ihOk l' hrec]
        | none =>
          cases he : change.endDt with
          | some q =>
            have hexp : expectedNotif entry
                (ChangedObj.sessionBlock i e, change) = some (.blockEnd q.2) := by
              simp [expectedNotif, hskip, hs, he]
            cases hrec : get_time_changes_notifications rest entry with
            | error u =>
              cases u
              have hstep : get_time_changes_notifications
                  ((ChangedObj.sessionBlock i e, change) :: rest) entry =
                  .error () := by
                simp [get_time_changes_notifications, hskip, hs, he, hrec,
                  bind, Except.bind]
              constructor
              · rw [hstep]
                simp only [true_iff]
                obtain ⟨q', hq', h'⟩ := ihErr.mp hrec
                exact ⟨q', List.mem_cons_of_mem _ hq', h'⟩
              · intro l hl
                rw [hstep] at hl
                exact absurd hl (by simp)
            | ok l' =>
              have hstep : get_time_changes_notifications
                  ((ChangedObj.sessionBlock i e, change) :: rest) entry =
                  .ok (.blockEnd q.2 :: l') := by
                simp [get_time_changes_notifications, hskip, hs, he, hrec,
                  bind, Except.bind, pure, Except.pure]
              rw [hrec] at ihErr
              simp only [show (Except.ok l' : Except Unit (List TimeNotif)) ≠
                .error () from by simp, false_iff] at ihErr
              constructor
              · rw [hstep]
                simp only [show (Except.ok (TimeNotif.blockEnd q.2 :: l') :
                  Except Unit (List TimeNotif)) ≠ .error () from by simp,
                  false_iff]
                rintro ⟨q', hq', h'⟩
                rcases List.mem_cons.mp hq' with rfl | hq'
                · exact absurd h'.2.2.2 (by simp [he])
                · exact ihErr ⟨q', hq', h'⟩
              · intro l hl
                rw [hstep] at hl
                rw [List.filterMap_cons, hexp]
                have hl' : l = TimeNotif.blockEnd q.2 :: l' := by
                  simpa using hl.symm
                rw [hl', ihOk l' hrec]
          | none =>
            have hstep : get_time_changes_notifications
                ((ChangedObj.sessionBlock i e, change) :: rest) entry =
                .error () := by
              simp [get_time_changes_notifications, hskip, hs, he]
            constructor
            · rw [hstep]
              simp only [true_iff]
              exact ⟨(ChangedObj.sessionBlock i e, change),
                List.mem_cons_self _ _, hskip, trivial, hs, he⟩
            · intro l hl
              rw [hstep] at hl
              exact absurd hl (by simp)

/-- Witness for C9 (amended): a changed event with a `start_dt` delta to
time 60, a skipped session block (it is the entry's own object) and a
changed contribution-like object with an empty record produce exactly one
message and no failure. -/
theorem get_time_changes_notifications_spec_witness :
    [TimeNotif.eventStart 60] =
      ([(ChangedObj.event 1, (⟨some (0, 60), none⟩ : TimeChange)),
        (ChangedObj.sessionBlock 2 5, (⟨none, none⟩ : TimeChange)),
        (ChangedObj.other 3 6, (⟨none, none⟩ : TimeChange))].filterMap
        (expectedNotif (some ⟨ChangedObj.sessionBlock 2 5, [6]⟩))) :=
  (get_time_changes_notifications_spec
    [(ChangedObj.event 1, ⟨some (0, 60), none⟩),
     (ChangedObj.sessionBlock 2 5, ⟨none, none⟩),
     (ChangedObj.other 3 6, ⟨none, none⟩)]
    (some ⟨ChangedObj.sessionBlock 2 5, [6]⟩)).2 [TimeNotif.eventStart 60] rfl

/-! ### Category timetable aggregator (claim C8)

`get_category_timetable` (util.py lines 137–258).  The database is an
explicit store; the `start_dt`/`end_dt` arguments are the instants
`day_start`/`day_end` (their `astimezone(utc)` leaves the instant unchanged)
and `off` is the display timezone `tz`, which is also the timezone the
arguments are expressed in (`start_dt.date()` is therefore
`localDate off day_start`). -/

/-- An event row with the predicates the queries evaluate on it:
`category_chain_overlaps`, `is_deleted` and `is_visible_in(from_categ)`. -/
structure CatEvent where
  id : Nat
  startDt : Int
  endDt : Int
  chainOverlap : Bool
  isDeleted : Bool
  visibleFrom : Bool
deriving DecidableEq

/-- A session block row: `b.session.event_id`, `Session.is_deleted` and the
block's `timetable_entry.start_dt`. -/
structure CatBlock where
  id : Nat
  sessionEventId : Nat
  sessionDeleted : Bool
  entryStartDt : Int
deriving DecidableEq

/-- A contribution row with its event, deletion flag and entry start. -/
structure CatContrib where
  id : Nat
  eventId : Nat
  isDeleted : Bool
  entryStartDt : Int
deriving DecidableEq

/-- A break row with its entry's event and start. -/
structure CatBreak where
  id : Nat
  entryEventId : Nat
  entryStartDt : Int
deriving DecidableEq

/-- The abstract data store: events, `TimetableEntry` rows as
`(event_id, start_dt)` pairs, session blocks, contributions and breaks. -/
structure CatStore where
  events : List CatEvent
  ttEntries : List (Nat × Int)
  blocks : List CatBlock
  contributions : List CatContrib
  breaks : List CatBreak

/-- The `detail_level` argument. -/
inductive DetailLevel where
  | event
  | session
  | contribution
deriving DecidableEq

/-- The overlapping timetable-entry start datetimes of an event, as joined by
`_query_events` (one row per entry; the SQL GROUP BY only deduplicates equal
rows, which does not change which objects appear in the result). -/
def eventEntryStarts (st : CatStore) (dayStart dayEnd : Int) (e : CatEvent) :
    List Int :=
  (st.ttEntries.filter (fun p =>
    decide (p.1 = e.id ∧ dayStart ≤ p.2 ∧ p.2 ≤ dayEnd))).map (fun p => p.2)

/-- Modelled from the spec: `Event.happens_between(day_start, day_end)`
(model not under `src/`) — "the event's own span overlaps [start, end]". -/
def happensBetween (dayStart dayEnd : Int) (e : CatEvent) : Prop :=
  e.startDt ≤ dayEnd ∧ dayStart ≤ e.endDt

instance (dayStart dayEnd : Int) (e : CatEvent) :
    Decidable (happensBetween dayStart dayEnd e) := by
  unfold happensBetween
  infer_instance

/-- The filter of `_query_events` (util.py lines 37–52) together with the
`from_categ` visibility filter applied on lines 167–168. -/
def eventMatches (st : CatStore) (dayStart dayEnd : Int) (fromCateg : Bool)
    (e : CatEvent) : Prop :=
  e.chainOverlap = true ∧ e.isDeleted = false ∧
    (eventEntryStarts st dayStart dayEnd e ≠ [] ∨
      happensBetween dayStart dayEnd e) ∧
    (fromCateg = true → e.visibleFrom = true)

instance (st : CatStore) (dayStart dayEnd : Int) (fromCateg : Bool)
    (e : CatEvent) : Decidable (eventMatches st dayStart dayEnd fromCateg e) := by
  unfold eventMatches
  infer_instance

/-- The value `items[e.id]` after the first loop (lines 169–173): `None` when the
matched event has no overlapping entry (the outer join produced a row with a
NULL start), otherwise the overlapping entry starts. -/
def itemsOf (st : CatStore) (dayStart dayEnd : Int) (e : CatEvent) :
    Option (List Int) :=
  if eventEntryStarts st dayStart dayEnd e = [] then none
  else some (eventEntryStarts st dayStart dayEnd e)

/-- The events returned by `_query_events` (with visibility filter). -/
def matchedEvents (st : CatStore) (dayStart dayEnd : Int) (fromCateg : Bool) :
    List CatEvent :=
  st.events.filter (fun e => decide (eventMatches st dayStart dayEnd fromCateg e))

/-- Line 176, `event_ids = set(items)`. -/
def matchedEventIds (st : CatStore) (dayStart dayEnd : Int) (fromCateg : Bool) :
    List Nat :=
  (matchedEvents st dayStart dayEnd fromCateg).map (fun e => e.id)

/-- Modelled from the spec: `iterdays(a, b)` from `indico.util.date_time` (not
under `src/`) — the days from `a` to `b` inclusive (empty if `a > b`). -/
def intRange (lo hi : Int) : List Int :=
  (List.range (hi + 1 - lo).toNat).map (fun n : Nat => lo + (n : Int))

/-- The day range iterated for an event with no timetable in the window
(line 195): from `max(start_dt.date(), local_start_dt)` to
`min(end_dt.date(), local_end_dt)`. -/
def eventDayRange (dayStart dayEnd off : Int) (e : CatEvent) : List Int :=
  intRange (max (localDate off dayStart) (localDate off e.startDt))
    (min (localDate off dayEnd) (localDate off e.endDt))

/-- The `scheduled_events` rows `(day, slot start, event)` one event
contributes in grouped mode (lines 193–203): for an event without timetable,
one row per iterated day equal to its local start date; otherwise one row per
distinct local start date of its entries, carrying the first entry start of
that date. -/
def scheduledRowsOf (st : CatStore) (dayStart dayEnd off : Int) (e : CatEvent) :
    List (Int × Int × CatEvent) :=
  match itemsOf st dayStart dayEnd e with
  | none =>
    ((eventDayRange dayStart dayEnd off e).filter
      (fun d => decide (d = localDate off e.startDt))).map
        (fun d => (d, e.startDt, e))
  | some starts =>
    ((starts.map (localDate off)).dedup).map (fun d =>
      (d, (starts.filter (fun s => decide (localDate off s = d))).headD 0, e))

/-- The `ongoing_events` occurrences one event contributes in grouped mode
(lines 199–200): one per iterated day different from its local start date. -/
def ongoingRowsOf (st : CatStore) (dayStart dayEnd off : Int) (e : CatEvent) :
    List CatEvent :=
  match itemsOf st dayStart dayEnd e with
  | none =>
    ((eventDayRange dayStart dayEnd off e).filter
      (fun d => decide (¬ d = localDate off e.startDt))).map (fun _ => e)
  | some _ => []

/-- Source `_query_blocks` (util.py lines 55–69). -/
def blocksQuery (st : CatStore) (dayStart dayEnd : Int) (ids : List Nat) :
    List CatBlock :=
  st.blocks.filter (fun b => decide (b.sessionDeleted = false ∧
    b.sessionEventId ∈ ids ∧ dayStart ≤ b.entryStartDt ∧
    b.entryStartDt ≤ dayEnd))

/-- The contribution query (util.py lines 232–238). -/
def contribsQuery (st : CatStore) (dayStart dayEnd : Int) (ids : List Nat) :
    List CatContrib :=
  st.contributions.filter (fun c => decide (c.eventId ∈ ids ∧
    dayStart ≤ c.entryStartDt ∧ c.entryStartDt ≤ dayEnd ∧
    c.isDeleted = false))

/-- The break query (util.py lines 247–250). -/
def breaksQuery (st : CatStore) (dayStart dayEnd : Int) (ids : List Nat) :
    List CatBreak :=
  st.breaks.filter (fun b => decide (b.entryEventId ∈ ids ∧
    dayStart ≤ b.entryStartDt ∧ b.entryStartDt ≤ dayEnd))

/-- The structured result: date-keyed buckets flattened into rows that keep
the keys (grouped mode) or flat per-event lists (non-grouped mode). -/
inductive CatResult where
  | grouped (scheduled : List (Int × Int × CatEvent)) (ongoing : List CatEvent)
      (blocks : List (Nat × Int × CatBlock))
      (contribs : List (Nat × Int × CatContrib))
      (breaks : List (Nat × Int × CatBreak))
  | flat (events : List CatEvent) (ongoing : List CatEvent)
      (blocks : List (Nat × CatBlock))
      (contributions : List (Nat × CatContrib))
      (breaks : List (Nat × CatBreak))

/-- The events iterated by the detail loop (lines 177–205):
`Event.id.in_(event_ids)` restricted by the `includible` predicate. -/
def detailEventsOf (st : CatStore) (dayStart dayEnd : Int) (fromCateg : Bool)
    (includible : CatEvent → Bool) : List CatEvent :=
  (st.events.filter (fun e =>
    decide (e.id ∈ matchedEventIds st dayStart dayEnd fromCateg))).filter
    includible

/-- Source `get_category_timetable(categ_ids, start_dt, end_dt, detail_level, tz,
from_categ, grouped, includible)` (util.py lines 137–258). -/
def get_category_timetable (st : CatStore) (dayStart dayEnd off : Int)
    (fromCateg : Bool) (detail : DetailLevel) (grouped : Bool)
    (includible : CatEvent → Bool) : CatResult :=
  let ids := matchedEventIds st dayStart dayEnd fromCateg
  let detailEvents := detailEventsOf st dayStart dayEnd fromCateg includible
  let blocks := if detail ≠ .event then blocksQuery st dayStart dayEnd ids else []
  let contribs :=
    if detail = .contribution then contribsQuery st dayStart dayEnd ids else []
  let breaks :=
    if detail = .contribution then breaksQuery st dayStart dayEnd ids else []
  if grouped then
    .grouped
      (detailEvents.flatMap (fun e => scheduledRowsOf st dayStart dayEnd off e))
      (detailEvents.flatMap (fun e => ongoingRowsOf st dayStart dayEnd off e))
      (blocks.map (fun b => (b.sessionEventId, localDate off b.entryStartDt, b)))
      (contribs.map (fun c => (c.eventId, localDate off c.entryStartDt, c)))
      (breaks.map (fun b => (b.entryEventId, localDate off b.entryStartDt, b)))
  else
    .flat detailEvents []
      (blocks.map (fun b => (b.sessionEventId, b)))
      (contribs.map (fun c => (c.eventId, c)))
      (breaks.map (fun b => (b.entryEventId, b)))

/-- The underlying event objects of a result (scheduled and ongoing). -/
def CatResult.eventObjs : CatResult → List CatEvent
  | .grouped scheduled ongoing _ _ _ => scheduled.map (fun r => r.2.2) ++ ongoing
  | .flat events ongoing _ _ _ => events ++ ongoing

/-- The underlying session block objects of a result. -/
def CatResult.blockObjs : CatResult → List CatBlock
  | .grouped _ _ blocks _ _ => blocks.map (fun r => r.2.2)
  | .flat _ _ blocks _ _ => blocks.map (fun r => r.2)

/-- The underlying contribution objects of a result. -/
def CatResult.contribObjs : CatResult → List CatContrib
  | .grouped _ _ _ contribs _ => contribs.map (fun r => r.2.2)
  | .flat _ _ _ contributions _ => contributions.map (fun r => r.2)

/-- The underlying break objects of a result. -/
def CatResult.breakObjs : CatResult → List CatBreak
  | .grouped _ _ _ _ breaks => breaks.map (fun r => r.2.2)
  | .flat _ _ _ _ breaks => breaks.map (fun r => r.2)

/-! ### Facts about the aggregator -/

theorem itemsOf_eq_some {st : CatStore} {dayStart dayEnd : Int} {e : CatEvent}
    (h : eventEntryStarts st dayStart dayEnd e ≠ []) :
    itemsOf st dayStart dayEnd e = some (eventEntryStarts st dayStart dayEnd e) := by
  unfold itemsOf
  rw [if_neg h]

theorem itemsOf_eq_none {st : CatStore} {dayStart dayEnd : Int} {e : CatEvent}
    (h : eventEntryStarts st dayStart dayEnd e = []) :
    itemsOf st dayStart dayEnd e = none := by
  unfold itemsOf
  rw [if_pos h]

theorem scheduledRowsOf_eq_none {st : CatStore} {dayStart dayEnd off : Int}
    {e : CatEvent} (h : itemsOf st dayStart dayEnd e = none) :
    scheduledRowsOf st dayStart dayEnd off e =
      ((eventDayRange dayStart dayEnd off e).filter
        (fun d => decide (d = localDate off e.startDt))).map
          (fun d => (d, e.startDt, e)) := by
  unfold scheduledRowsOf
  rw [h]

theorem scheduledRowsOf_eq_some {st : CatStore} {dayStart dayEnd off : Int}
    {e : CatEvent} {starts : List Int}
    (h : itemsOf st dayStart dayEnd e = some starts) :
    scheduledRowsOf st dayStart dayEnd off e =
      ((starts.map (localDate off)).dedup).map (fun d =>
        (d, (starts.filter (fun s => decide (localDate off s = d))).headD 0,
          e)) := by
  unfold scheduledRowsOf
  rw [h]

theorem ongoingRowsOf_eq_none {st : CatStore} {dayStart dayEnd off : Int}
    {e : CatEvent} (h : itemsOf st dayStart dayEnd e = none) :
    ongoingRowsOf st dayStart dayEnd off e =
      ((eventDayRange dayStart dayEnd off e).filter
        (fun d => decide (¬ d = localDate off e.startDt))).map (fun _ => e) := by
  unfold ongoingRowsOf
  rw [h]

theorem ongoingRowsOf_eq_some {st : CatStore} {dayStart dayEnd off : Int}
    {e : CatEvent} {starts : List Int}
    (h : itemsOf st dayStart dayEnd e = some starts) :
    ongoingRowsOf st dayStart dayEnd off e = [] := by
  unfold ongoingRowsOf
  rw [h]

theorem mem_intRange_self {lo hi : Int} (h : lo ≤ hi) : lo ∈ intRange lo hi := by
  unfold intRange
  have h0 : (0 : Nat) ∈ List.range (hi + 1 - lo).toNat := by
    rw [List.mem_range]
    omega
  exact List.mem_map.mpr ⟨0, h0, by simp⟩

/-- Every scheduled row an event contributes carries that event. -/
theorem scheduledRowsOf_objs (st : CatStore) (dayStart dayEnd off : Int)
    (e : CatEvent) :
    ∀ r ∈ scheduledRowsOf st dayStart dayEnd off e, r.2.2 = e := by
  intro r hr
  by_cases hent : eventEntryStarts st dayStart dayEnd e = []
  · rw [scheduledRowsOf_eq_none (itemsOf_eq_none hent)] at hr
    obtain ⟨d, -, rfl⟩ := List.mem_map.mp hr
    rfl
  · rw [scheduledRowsOf_eq_some (itemsOf_eq_some hent)] at hr
    obtain ⟨d, -, rfl⟩ := List.mem_map.mp hr
    rfl

/-- Every ongoing occurrence an event contributes is that event. -/
theorem ongoingRowsOf_objs (st : CatStore) (dayStart dayEnd off : Int)
    (e : CatEvent) :
    ∀ x ∈ ongoingRowsOf st dayStart dayEnd off e, x = e := by
  intro x hx
  by_cases hent : eventEntryStarts st dayStart dayEnd e = []
  · rw [ongoingRowsOf_eq_none (itemsOf_eq_none hent)] at hx
    obtain ⟨d, -, rfl⟩ := List.mem_map.mp hx
    rfl
  · rw [ongoingRowsOf_eq_some (itemsOf_eq_some hent)] at hx
    cases hx

/-- A matched event contributes at least one scheduled row or one ongoing
occurrence. -/
theorem rowsOf_nonempty (st : CatStore) (dayStart dayEnd off : Int)
    (e : CatEvent) (harg : dayStart ≤ dayEnd) (hwf : e.startDt ≤ e.endDt)
    (hmatch : eventEntryStarts st dayStart dayEnd e ≠ [] ∨
      happensBetween dayStart dayEnd e) :
    scheduledRowsOf st dayStart dayEnd off e ≠ [] ∨
      ongoingRowsOf st dayStart dayEnd off e ≠ [] := by
  by_cases hent : eventEntryStarts st dayStart dayEnd e = []
  · have hhb : happensBetween dayStart dayEnd e :=
      hmatch.resolve_left (fun h => h hent)
    have hlohi : max (localDate off dayStart) (localDate off e.startDt) ≤
        min (localDate off dayEnd) (localDate off e.endDt) := by
      obtain ⟨h1, h2⟩ := hhb
      exact max_le (le_min (localDate_mono harg) (localDate_mono h2))
        (le_min (localDate_mono h1) (localDate_mono hwf))
    have hmem : max (localDate off dayStart) (localDate off e.startDt) ∈
        eventDayRange dayStart dayEnd off e := mem_intRange_self hlohi
    by_cases hd : max (localDate off dayStart) (localDate off e.startDt) =
        localDate off e.startDt
    · left
      rw [scheduledRowsOf_eq_none (itemsOf_eq_none hent)]
      apply List.ne_nil_of_mem
      exact List.mem_map_of_mem _
        (List.mem_filter.mpr ⟨hmem, by simp [hd]⟩)
    · right
      rw [ongoingRowsOf_eq_none (itemsOf_eq_none hent)]
      apply List.ne_nil_of_mem
      exact List.mem_map_of_mem _
        (List.mem_filter.mpr ⟨hmem, by simp [hd]⟩)
  · left
    rw [scheduledRowsOf_eq_some (itemsOf_eq_some hent)]
    intro hcon
    rw [List.map_eq_nil_iff, List.dedup_eq_nil, List.map_eq_nil_iff] at hcon
    exact hent hcon

/-- Every event of the detail loop is a stored event satisfying the
`_query_events` filter. -/
theorem detailEvents_matches (st : CatStore) (dayStart dayEnd : Int)
    (fromCateg : Bool) (includible : CatEvent → Bool)
    (hids : (st.events.map (fun e => e.id)).Nodup) :
    ∀ e ∈ detailEventsOf st dayStart dayEnd fromCateg includible,
      e ∈ st.events ∧ eventMatches st dayStart dayEnd fromCateg e := by
  intro e he
  obtain ⟨he1, -⟩ := List.mem_filter.mp he
  obtain ⟨he2, hid⟩ := List.mem_filter.mp he1
  refine ⟨he2, ?_⟩
  have hid' : e.id ∈ matchedEventIds st dayStart dayEnd fromCateg := by
    simpa using hid
  obtain ⟨m, hm, hmid⟩ := List.mem_map.mp hid'
  obtain ⟨hm1, hm2⟩ := List.mem_filter.mp hm
  have heq : m = e := List.inj_on_of_nodup_map hids hm1 he2 hmid
  rw [← heq]
  exact of_decide_eq_true hm2

/-- Grouped-mode result, spelled out. -/
theorem cat_grouped_eq (st : CatStore) (dayStart dayEnd off : Int)
    (fromCateg : Bool) (detail : DetailLevel) (includible : CatEvent → Bool) :
    get_category_timetable st dayStart dayEnd off fromCateg detail true
        includible =
      .grouped
        ((detailEventsOf st dayStart dayEnd fromCateg includible).flatMap
          (fun e => scheduledRowsOf st dayStart dayEnd off e))
        ((detailEventsOf st dayStart dayEnd fromCateg includible).flatMap
          (fun e => ongoingRowsOf st dayStart dayEnd off e))
        ((if detail ≠ .event then
            blocksQuery st dayStart dayEnd
              (matchedEventIds st dayStart dayEnd fromCateg)
          else []).map
            (fun b => (b.sessionEventId, localDate off b.entryStartDt, b)))
        ((if detail = .contribution then
            contribsQuery st dayStart dayEnd
              (matchedEventIds st dayStart dayEnd fromCateg)
          else []).map
            (fun c => (c.eventId, localDate off c.entryStartDt, c)))
        ((if detail = .contribution then
            breaksQuery st dayStart dayEnd
              (matchedEventIds st dayStart dayEnd fromCateg)
          else []).map
            (fun b => (b.entryEventId, localDate off b.entryStartDt, b))) := rfl

/-- Non-grouped-mode result, spelled out. -/
theorem cat_flat_eq (st : CatStore) (dayStart dayEnd off : Int)
    (fromCateg : Bool) (detail : DetailLevel) (includible : CatEvent → Bool) :
    get_category_timetable st dayStart dayEnd off fromCateg detail false
        includible =
      .flat (detailEventsOf st dayStart dayEnd fromCateg includible) []
        ((if detail ≠ .event then
            blocksQuery st dayStart dayEnd
              (matchedEventIds st dayStart dayEnd fromCateg)
          else []).map (fun b => (b.sessionEventId, b)))
        ((if detail = .contribution then
            contribsQuery st dayStart dayEnd
              (matchedEventIds st dayStart dayEnd fromCateg)
          else []).map (fun c => (c.eventId, c)))
        ((if detail = .contribution then
            breaksQuery st dayStart dayEnd
              (matchedEventIds st dayStart dayEnd fromCateg)
          else []).map (fun b => (b.entryEventId, b))) := rfl

/-- C8: for the same store and arguments, the grouped and the non-grouped
results of `get_category_timetable` contain the same underlying objects:
the same set of events (scheduled together with ongoing), and exactly the
same session blocks, contributions and breaks; only the nesting shape
differs. -/
theorem get_category_timetable_grouped_vs_flat (st : CatStore)
    (dayStart dayEnd off : Int) (fromCateg : Bool) (detail : DetailLevel)
    (includible : CatEvent → Bool) (harg : dayStart ≤ dayEnd)
    (hwf : ∀ e ∈ st.events, e.startDt ≤ e.endDt)
    (hids : (st.events.map (fun e => e.id)).Nodup) :
    (∀ x, x ∈ (get_category_timetable st dayStart dayEnd off fromCateg detail
          true includible).eventObjs ↔
        x ∈ (get_category_timetable st dayStart dayEnd off fromCateg detail
          false includible).eventObjs) ∧
    (get_category_timetable st dayStart dayEnd off fromCateg detail true
        includible).blockObjs =
      (get_category_timetable st dayStart dayEnd off fromCateg detail false
        includible).blockObjs ∧
    (get_category_timetable st dayStart dayEnd off fromCateg detail true
        includible).contribObjs =
      (get_category_timetable st dayStart dayEnd off fromCateg detail false
        includible).contribObjs ∧
    (get_category_timetable st dayStart dayEnd off fromCateg detail true
        includible).breakObjs =
      (get_category_timetable st dayStart dayEnd off fromCateg detail false
        includible).breakObjs := by
  rw [cat_grouped_eq, cat_flat_eq]
  refine ⟨?_, ?_, ?_, ?_⟩
  · intro x
    simp only [CatResult.eventObjs, List.mem_append, List.mem_map,
      List.mem_flatMap]
    constructor
    · rintro (⟨r, ⟨e, he, hr⟩, hrx⟩ | ⟨e, he, hx⟩)
      · have hre : r.2.2 = e := scheduledRowsOf_objs st dayStart dayEnd off e r hr
        rw [hre] at hrx
        rw [← hrx]
        exact Or.inl he
      · rw [ongoingRowsOf_objs st dayStart dayEnd off e x hx]
        exact Or.inl he
    · intro hx
      rcases hx with hx | hx
      swap
      · cases hx
      obtain ⟨hxev, hxmatch⟩ := detailEvents_matches st dayStart dayEnd
        fromCateg includible hids x hx
      rcases rowsOf_nonempty st dayStart dayEnd off x harg (hwf x hxev)
          hxmatch.2.2.1 with hne | hne
      · obtain ⟨r, hr⟩ := List.exists_mem_of_ne_nil _ hne
        exact Or.inl ⟨r, ⟨x, hx, hr⟩,
          scheduledRowsOf_objs st dayStart dayEnd off x r hr⟩
      · obtain ⟨y, hy⟩ := List.exists_mem_of_ne_nil _ hne
        have hyx : y = x := ongoingRowsOf_objs st dayStart dayEnd off x y hy
        exact Or.inr ⟨x, hx, hyx ▸ hy⟩
  · simp only [CatResult.blockObjs, List.map_map]
    rfl
  · simp only [CatResult.contribObjs, List.map_map]
    rfl
  · simp only [CatResult.breakObjs, List.map_map]
    rfl

/-- A concrete store for the C8 witness: one matching event with one
overlapping entry, one block, one contribution and one break. -/
def evW : CatEvent := ⟨1, 100, 2000, true, false, true⟩

/-- The witness store around `evW`. -/
def stW : CatStore :=
  ⟨[evW], [(1, 200)], [⟨10, 1, false, 200⟩], [⟨20, 1, false, 200⟩],
    [⟨30, 1, 200⟩]⟩

/-- Witness for C8 at `stW` over the window [0, 1440] in UTC: the event
appears on both sides, and the block, contribution and break object lists of
the two modes coincide. -/
theorem get_category_timetable_grouped_vs_flat_witness :
    (evW ∈ (get_category_timetable stW 0 1440 0 false .contribution true
        (fun _ => true)).eventObjs ↔
      evW ∈ (get_category_timetable stW 0 1440 0 false .contribution false
        (fun _ => true)).eventObjs) ∧
    (get_category_timetable stW 0 1440 0 false .contribution true
        (fun _ => true)).blockObjs =
      (get_category_timetable stW 0 1440 0 false .contribution false
        (fun _ => true)).blockObjs := by
  obtain ⟨h1, h2, -, -⟩ := get_category_timetable_grouped_vs_flat stW 0 1440 0
    false .contribution (fun _ => true) (by norm_num) (by decide) (by decide)
  exact ⟨h1 evW, h2⟩
